import Mathlib

/-!
Verification of the fragment quality-control core of SnapATAC2
(`snapatac2-core/src/preprocessing/qc.rs`), shallowly embedded in Lean.

Modelling conventions:
* Rust `u64`/`u32` counters are embedded as `Nat`; the claims under study
  never exercise wrap-around, and `u64` subtraction that would panic on
  underflow in Rust is modelled by truncated `Nat` subtraction (each use
  site is guarded by a hypothesis or proved in range).
* Rust `String` is `String`, but line-level parsing works on `List Char`
  (`String.data`), matching byte-wise `split('\t')` on the ASCII inputs
  the format allows.
* `f64` results are embedded as the type `F64` below: a finite rational
  (rounding is abstracted away; all claims are about the exact formula,
  not rounding), or one of the IEEE non-finite values `+inf`, `-inf`,
  `nan` that the QC formulas can actually produce. Division of the
  nonnegative operands arising here is `fdivQ`.
* The external interval index (`bed_utils::bed::map::GIntervalMap`) is an
  out-of-scope collaborator; it is modelled from the spec's collaborator
  interface (insert / query-overlaps) as an association list queried by
  interval overlap.
-/

namespace SnapQC

/-- Strand of a genomic feature (`bed_utils::bed::Strand`). -/
inductive Strand where
  | Forward
  | Reverse
deriving DecidableEq, Repr

/-- A genomic interval (`bed_utils::bed::GenomicRange`): chromosome plus
0-based half-open coordinates.  The Rust field `end` is a Lean keyword and
is called `stop` here. -/
structure GenomicRange where
  chrom : String
  start : Nat
  stop : Nat
deriving DecidableEq, Repr

/-- Modelled from the spec: the external interval index's overlap test
(§6 "query-overlaps"): two intervals overlap iff they are on the same
chromosome and their half-open ranges intersect. -/
def GenomicRange.overlapsWith (a b : GenomicRange) : Bool :=
  a.chrom = b.chrom && a.start < b.stop && b.start < a.stop

/-- Struct `Fragment` from `qc.rs`: one sequencing fragment.  The Rust field
`end` is called `stop`. -/
structure Fragment where
  chrom : String
  start : Nat
  stop : Nat
  barcode : Option String
  count : Nat
  strand : Option Strand
deriving DecidableEq, Repr

/-- Method `Fragment::to_insertions`: a strand-less fragment contributes both
cut sites, a stranded fragment only the strand-appropriate one. -/
def Fragment.to_insertions (f : Fragment) : List GenomicRange :=
  match f.strand with
  | none =>
      [⟨f.chrom, f.start, f.start + 1⟩, ⟨f.chrom, f.stop - 1, f.stop⟩]
  | some Strand.Forward => [⟨f.chrom, f.start, f.start + 1⟩]
  | some Strand.Reverse => [⟨f.chrom, f.stop - 1, f.stop⟩]

end SnapQC

namespace SnapQC

/-- Rust's `str::split('\t')`: splits a character list at every tab,
keeping empty pieces; the empty input yields one empty field. -/
def splitTab : List Char → List (List Char)
  | [] => [[]]
  | c :: cs =>
      if c = '\t' then [] :: splitTab cs
      else
        match splitTab cs with
        | [] => [[c]]
        | f :: rest => (c :: f) :: rest

/-- A decimal digit character mapped to its value; `none` otherwise. -/
def charDigit (c : Char) : Option Nat :=
  if '0' ≤ c ∧ c ≤ '9' then some (c.toNat - '0'.toNat) else none

/-- Parser `lexical::parse` for the unsigned integers appearing in fragment
records: a nonempty all-digit string parses to its decimal value. -/
def parseNat (l : List Char) : Option Nat :=
  if l.isEmpty then none
  else l.foldl (fun acc c => acc.bind fun a => (charDigit c).map fun d => a * 10 + d) (some 0)

/-- Decimal rendering of a natural number (Rust's `Display` for `u64`). -/
def natChars (n : Nat) : List Char :=
  if n = 0 then ['0'] else ((Nat.digits 10 n).map Nat.digitChar).reverse

/-- Rendering `Display` for `bed_utils::bed::Strand`. -/
def strandChars : Strand → List Char
  | Strand.Forward => ['+']
  | Strand.Reverse => ['-']

/-- Equality of parse results is decidable. -/
instance {e a : Type} [DecidableEq e] [DecidableEq a] : DecidableEq (Except e a) :=
  fun x y =>
    match x, y with
    | .error u, .error v =>
        match decEq u v with
        | isTrue h => isTrue (by rw [h])
        | isFalse h => isFalse (by intro hc; injection hc; contradiction)
    | .ok u, .ok v =>
        match decEq u v with
        | isTrue h => isTrue (by rw [h])
        | isFalse h => isFalse (by intro hc; injection hc; contradiction)
    | .error _, .ok _ => isFalse (by intro hc; injection hc)
    | .ok _, .error _ => isFalse (by intro hc; injection hc)

/-- The `bed_utils::bed::ParseError` variants reachable from
`Fragment::from_str` (the Rust variants' payloads are dropped). -/
inductive ParseError where
  | MissingReferenceSequenceName
  | MissingStartPosition
  | MissingEndPosition
  | MissingName
  | InvalidStartPosition
  | InvalidEndPosition
  | InvalidStrand
deriving DecidableEq, Repr

/-- The "missing field" kind of parse error (a required tab-separated
column is absent), as opposed to the "invalid field" kind. -/
def ParseError.isMissingField : ParseError → Bool
  | .MissingReferenceSequenceName => true
  | .MissingStartPosition => true
  | .MissingEndPosition => true
  | .MissingName => true
  | _ => false

/-- The count column of `Fragment::from_str`: absent or `"."` defaults
to 1; otherwise it must parse as an unsigned integer.  The Rust code maps
a count parse failure to `ParseError::InvalidStartPosition`. -/
def countField : Option (List Char) → Except ParseError Nat
  | none => .ok 1
  | some s => if s = ['.'] then .ok 1 else
      match parseNat s with
      | none => .error .InvalidStartPosition
      | some n => .ok n

/-- The strand column of `Fragment::from_str`: absent or `"."` is no
strand; `"+"`/`"-"` parse; anything else is `InvalidStrand`. -/
def strandField : Option (List Char) → Except ParseError (Option Strand)
  | none => .ok none
  | some s =>
      if s = ['.'] then .ok none
      else if s = ['+'] then .ok (some Strand.Forward)
      else if s = ['-'] then .ok (some Strand.Reverse)
      else .error .InvalidStrand

/-- Parsing `Fragment::from_str` after splitting on tab: consumes the fields
chrom, start, end, barcode, count, strand in order, exactly as the
iterator-based Rust code does. -/
def Fragment.from_fields (fs : List (List Char)) : Except ParseError Fragment :=
  match fs.get? 0 with
  | none => .error .MissingReferenceSequenceName
  | some chromF =>
    match fs.get? 1 with
    | none => .error .MissingStartPosition
    | some startF =>
      match parseNat startF with
      | none => .error .InvalidStartPosition
      | some start =>
        match fs.get? 2 with
        | none => .error .MissingEndPosition
        | some endF =>
          match parseNat endF with
          | none => .error .InvalidEndPosition
          | some stop =>
            match fs.get? 3 with
            | none => .error .MissingName
            | some bcF =>
              match countField (fs.get? 4) with
              | .error e => .error e
              | .ok count =>
                match strandField (fs.get? 5) with
                | .error e => .error e
                | .ok strand =>
                  .ok ⟨String.mk chromF, start, stop,
                       if bcF = ['.'] then none else some (String.mk bcF),
                       count, strand⟩

/-- Parsing `Fragment::from_str` on a line of characters. -/
def Fragment.from_line (l : List Char) : Except ParseError Fragment :=
  Fragment.from_fields (splitTab l)

/-- Parsing `Fragment::from_str` on a string. -/
def Fragment.from_str (s : String) : Except ParseError Fragment :=
  Fragment.from_line s.data

/-- Serializer `impl Display for Fragment`: chrom, start, end, barcode-or-dot and
count are always printed; the strand column is appended only when
present. -/
def Fragment.toLine (f : Fragment) : List Char :=
  f.chrom.data ++ '\t' :: natChars f.start ++ '\t' :: natChars f.stop
    ++ '\t' :: (f.barcode.map String.data).getD ['.']
    ++ '\t' :: natChars f.count
    ++ (f.strand.map fun s => '\t' :: strandChars s).getD []

end SnapQC

namespace SnapQC

/-- The `f64` values producible by the QC formulas: a finite value
(held exactly as a rational; IEEE rounding is abstracted away) or one of
the non-finite values. -/
inductive F64 where
  | finite (q : ℚ)
  | posInf
  | negInf
  | nan
deriving DecidableEq, Repr

/-- IEEE `f64` division for the nonnegative finite operands arising in
the QC formulas: `0/0` is `nan`, `x/0` is `+inf` for `x > 0`, and a
nonzero denominator gives the exact quotient. -/
def fdivQ (a b : ℚ) : F64 :=
  if b = 0 then (if a = 0 then F64.nan else F64.posInf) else F64.finite (a / b)

/-- IEEE `1.0 - x` on the values of `F64`. -/
def oneSub : F64 → F64
  | F64.finite q => F64.finite (1 - q)
  | F64.posInf => F64.negInf
  | F64.negInf => F64.posInf
  | F64.nan => F64.nan

/-- Finalized per-cell QC record (`QualityControl`). -/
structure QualityControl where
  num_unique_fragment : Nat
  frac_mitochondrial : F64
  frac_duplicated : F64
deriving DecidableEq, Repr

/-- Struct `FragmentSummary`: streaming per-cell counters plus the shared set of
mitochondrial chromosome names (a `HashSet` in Rust, a list queried by
membership here). -/
structure FragmentSummary where
  num_unique_fragment : Nat
  num_total_fragment : Nat
  num_mitochondrial : Nat
  mitochondrial_dna : List String
deriving DecidableEq, Repr

/-- Constructor `FragmentSummary::new`. -/
def FragmentSummary.new (mitochondrial_dna : List String) : FragmentSummary :=
  ⟨0, 0, 0, mitochondrial_dna⟩

/-- Method `FragmentSummary::update`: the total grows by the fragment's `count`,
while exactly one of the mitochondrial / unique counters grows by 1. -/
def FragmentSummary.update (s : FragmentSummary) (fragment : Fragment) : FragmentSummary :=
  if s.mitochondrial_dna.contains fragment.chrom then
    { s with
      num_total_fragment := s.num_total_fragment + fragment.count,
      num_mitochondrial := s.num_mitochondrial + 1 }
  else
    { s with
      num_total_fragment := s.num_total_fragment + fragment.count,
      num_unique_fragment := s.num_unique_fragment + 1 }

/-- Finalizer `FragmentSummary::get_qc`. -/
def FragmentSummary.get_qc (s : FragmentSummary) : QualityControl :=
  { num_unique_fragment := s.num_unique_fragment,
    frac_mitochondrial :=
      fdivQ ((s.num_mitochondrial : Nat) : ℚ)
        ((s.num_unique_fragment + s.num_mitochondrial : Nat) : ℚ),
    frac_duplicated :=
      oneSub (fdivQ ((s.num_unique_fragment + s.num_mitochondrial : Nat) : ℚ)
        ((s.num_total_fragment : Nat) : ℚ)) }

/-- Folding a fragment stream through one `FragmentSummary`. -/
def run_summary (mito : List String) (frags : List Fragment) : FragmentSummary :=
  frags.foldl FragmentSummary.update (FragmentSummary.new mito)

end SnapQC

namespace SnapQC

/-- Function `moving_average(half_window, arr)` from `qc.rs`: entry `i` is the sum
of the slice `arr[i - hw .. min(i + hw + 1, n)]` (saturating lower bound)
divided by that slice's length. -/
def moving_average (half_window : Nat) (arr : List Nat) : List ℚ :=
  (List.range arr.length).map fun i =>
    let lo := i - half_window
    let hi := min (i + half_window + 1) arr.length
    (((arr.drop lo).take (hi - lo)).sum : ℚ) / ((hi - lo : Nat) : ℚ)

/-- One line of `read_tss`: comment lines and non-`transcript` rows give
nothing; a transcript row yields `(chrom, start-or-end minus 1, is_fwd)`.
Where the Rust code would panic (empty line, too few columns, numeric
parse failure, position 0), the line is modelled as skipped; no claim
exercises those inputs. -/
def read_tss_line (l : List Char) : Option (String × Nat × Bool) :=
  match l with
  | [] => none
  | c :: _ =>
    if c = '#' then none
    else
      let elements := splitTab l
      match elements.get? 2 with
      | none => none
      | some ty =>
        if ty = "transcript".data then
          match elements.get? 6 with
          | none => none
          | some strandF =>
            let is_fwd := strandF ≠ "-".data
            match (if is_fwd then elements.get? 3 else elements.get? 4) with
            | none => none
            | some posF =>
              match parseNat posF with
              | none => none
              | some p => some (String.mk (elements.getD 0 []), p - 1, is_fwd)
        else none

/-- Function `read_tss`: filter-map `read_tss_line` over the annotation lines. -/
def read_tss (lines : List (List Char)) : List (String × Nat × Bool) :=
  lines.filterMap read_tss_line

/-- Struct `TssRegions`: promoter interval index (the external `GIntervalMap`
is modelled as its association list) plus the half-window size. -/
structure TssRegions where
  promoters : List (GenomicRange × Bool)
  window_size : Nat
deriving DecidableEq, Repr

/-- Constructor `TssRegions::new`: each TSS triple becomes one window
`[tss - W, tss + W + 1)` (saturating at 0, as Rust's `saturating_sub`)
tagged with its orientation; duplicates are kept. -/
def TssRegions.new (l : List (String × Nat × Bool)) (window_size : Nat) : TssRegions :=
  { promoters :=
      l.map fun x => (⟨x.1, x.2.1 - window_size, x.2.1 + window_size + 1⟩, x.2.2),
    window_size := window_size }

/-- Method `TssRegions::len`: the histogram length `2 * window_size + 1`. -/
def TssRegions.len (r : TssRegions) : Nat :=
  2 * r.window_size + 1

/-- Function `make_promoter_map`: the same interval construction as
`TssRegions::new`, returning the bare index. -/
def make_promoter_map (l : List (String × Nat × Bool)) (half_window_size : Nat) :
    List (GenomicRange × Bool) :=
  l.map fun x => (⟨x.1, x.2.1 - half_window_size, x.2.1 + half_window_size + 1⟩, x.2.2)

/-- Struct `TSSe`: the TSS-enrichment accumulator.  The Rust struct borrows the
shared promoter index; here the index value is a field. -/
structure TSSe where
  promoters : TssRegions
  counts : List Nat
  n_overlapping : Nat
  n_total : Nat
deriving DecidableEq, Repr

/-- Constructor `TSSe::new`: zero histogram of length `2W+1`, zero totals. -/
def TSSe.new (promoters : TssRegions) : TSSe :=
  ⟨promoters, List.replicate promoters.len 0, 0, 0⟩

/-- Increment `counts[i] += 1`.  Rust panics when `i` is out of range; that case is
modelled as a no-op and proved unreachable for indexes produced by
`TSSe::add` over a `TssRegions::new` index (claim C10). -/
def incr (l : List Nat) (i : Nat) : List Nat :=
  l.set i (l.getD i 0 + 1)

/-- The body of the per-insertion loop of `TSSe::add`: bump `n_total`,
find the overlapping promoter windows, bump the histogram at the
strand-mirrored offset of each, and bump `n_overlapping` once if any
window overlapped. -/
def TSSe.addInsertion (s : TSSe) (ins : GenomicRange) : TSSe :=
  let hits := s.promoters.promoters.filter fun pb => pb.1.overlapsWith ins
  { s with
    n_total := s.n_total + 1,
    counts :=
      hits.foldl
        (fun cs pb =>
          incr cs (if pb.2 then ins.start - pb.1.start else pb.1.stop - 1 - ins.start))
        s.counts,
    n_overlapping := s.n_overlapping + (if hits.isEmpty then 0 else 1) }

/-- Method `TSSe::add`: process each insertion derived from the fragment. -/
def TSSe.add (s : TSSe) (frag : Fragment) : TSSe :=
  frag.to_insertions.foldl TSSe.addInsertion s

/-- Method `TSSe::add_from` (merge): element-wise histogram sum (Rust's
`iter_mut().zip(..)` leaves any excess entries of `self` untouched) and
added totals. -/
def TSSe.add_from (a b : TSSe) : TSSe :=
  { a with
    n_overlapping := a.n_overlapping + b.n_overlapping,
    n_total := a.n_total + b.n_total,
    counts := a.counts.zipWith (· + ·) b.counts ++ a.counts.drop b.counts.length }

/-- Finalizer `TSSe::result`: `(tss_enrichment_score, overlap_rate)`.  The moving
average's `nth(window_size).unwrap()` is modelled with `getD`; the index
is in range whenever the histogram has its constructed length. -/
def TSSe.result (s : TSSe) : F64 × F64 :=
  let left_end_sum := (s.counts.take 100).sum
  let right_end_sum := (s.counts.reverse.take 100).sum
  let background : ℚ := ((left_end_sum + right_end_sum : Nat) : ℚ) / 200 + 1/10
  let tss_count : ℚ := (moving_average 5 s.counts).getD s.promoters.window_size 0
  (fdivQ tss_count background, fdivQ s.n_overlapping s.n_total)

/-- The `TSSe` states constructible through the public interface over a
fixed promoter index: `new`, any number of `add`s, and merges of two
states over the same index. -/
inductive TSSe.Reachable (r : TssRegions) : TSSe → Prop where
  | base : TSSe.Reachable r (TSSe.new r)
  | step (s : TSSe) (f : Fragment) :
      TSSe.Reachable r s → TSSe.Reachable r (TSSe.add s f)
  | combine (s t : TSSe) :
      TSSe.Reachable r s → TSSe.Reachable r t → TSSe.Reachable r (TSSe.add_from s t)

end SnapQC

namespace SnapQC

/-- Spec-side formula (§4.4): background is the mean of the first and
last 100 histogram bins plus the 0.1 pseudocount. -/
def backgroundSpec (counts : List Nat) : ℚ :=
  (((counts.take 100).sum + (counts.reverse.take 100).sum : Nat) : ℚ) / 200 + 1/10

/-- Spec-side formula (§4.4): `smoothed[i]` is the mean of
`histogram[max(0,i-5) .. min(n,i+6)]`, truncated at the edges. -/
def smoothedSpec (counts : List Nat) (i : Nat) : ℚ :=
  let lo := (max ((i : Int) - 5) 0).toNat
  let hi := min counts.length (i + 6)
  let slice := (counts.drop lo).take (hi - lo)
  ((slice.sum : Nat) : ℚ) / ((slice.length : Nat) : ℚ)

end SnapQC

namespace SnapQC

/-- The annotation line of the end-to-end scenario: one forward-strand
transcript at `chrom1:1000-2000` (1-based GTF coordinates). -/
def c1line : List Char :=
  ("chrom1\tHAVANA\ttranscript\t1000\t2000\t.\t+\t.").data

/-- The strandless paired-end fragment `chrom1 994 1004` of the
end-to-end scenario. -/
def c1frag : Fragment :=
  ⟨"chrom1", 994, 1004, none, 1, none⟩

/-- The accumulator state after feeding the scenario's one fragment to a
fresh `TSSe` over the promoter index built from the annotation. -/
def c1state : TSSe :=
  TSSe.add (TSSe.new (TssRegions.new (read_tss [c1line]) 5)) c1frag

/-- C1 (counterexample): in the end-to-end scenario the claim asserts
`n_overlapping = 1`, but both derived insertions (at 994 and 1003)
overlap the promoter window `[994, 1005)` and `TSSe::add` increments
`n_overlapping` once per overlapping insertion, so it ends at 2. -/
theorem c1_n_overlapping_is_two :
    c1state.n_overlapping = 2 ∧ c1state.n_overlapping ≠ 1 := by
  decide

/-- C1 (amended): the end-to-end scenario with `half_window = 5`:
`read_tss` yields TSS position 999 (0-based), the promoter window is
`[994, 1005)`, the strandless fragment `chrom1 994 1004` derives
insertions at 994 and 1003, both inside the window, the histogram is
incremented at offsets 0 and 9, and the final totals are
`n_overlapping = 2` (one per overlapping insertion) and `n_total = 2`. -/
theorem c1_end_to_end :
    read_tss [c1line] = [("chrom1", 999, true)] ∧
    (TssRegions.new (read_tss [c1line]) 5).promoters = [(⟨"chrom1", 994, 1005⟩, true)] ∧
    c1frag.to_insertions = [⟨"chrom1", 994, 995⟩, ⟨"chrom1", 1003, 1004⟩] ∧
    GenomicRange.overlapsWith ⟨"chrom1", 994, 1005⟩ ⟨"chrom1", 994, 995⟩ = true ∧
    GenomicRange.overlapsWith ⟨"chrom1", 994, 1005⟩ ⟨"chrom1", 1003, 1004⟩ = true ∧
    c1state.counts = [1, 0, 0, 0, 0, 0, 0, 0, 0, 1, 0] ∧
    c1state.n_overlapping = 2 ∧ c1state.n_total = 2 := by
  decide

/-- C3 (counterexample): `TssRegions::new` builds the window with
`tss.saturating_sub(window_size)`, so a TSS at position 2 with
`half_window = 5` yields the truncated window `[0, 8)` spanning 8
positions, not `2*5+1 = 11`. -/
theorem c3_saturated_window :
    (TssRegions.new [("c", 2, true)] 5).promoters = [(⟨"c", 0, 8⟩, true)] ∧
    (⟨"c", 0, 8⟩ : GenomicRange).stop - (⟨"c", 0, 8⟩ : GenomicRange).start ≠ 2 * 5 + 1 := by
  decide

/-- C3 (amended): building the promoter index inserts, for every
consumed triple, exactly one interval
`(chrom, [tss saturating-minus W, tss + W + 1))` with payload
`is_forward`, with no deduplication (`make_promoter_map` agrees); every
inserted window spans exactly `2W+1` positions provided `W ≤ tss`. -/
theorem c3_window_geometry (l : List (String × Nat × Bool)) (W : Nat) :
    (TssRegions.new l W).promoters
      = l.map (fun x => (⟨x.1, x.2.1 - W, x.2.1 + W + 1⟩, x.2.2)) ∧
    make_promoter_map l W = (TssRegions.new l W).promoters ∧
    ∀ c t f, (c, t, f) ∈ l → W ≤ t →
      (⟨c, t - W, t + W + 1⟩ : GenomicRange).stop
        - (⟨c, t - W, t + W + 1⟩ : GenomicRange).start = 2 * W + 1 := by
  refine ⟨rfl, rfl, ?_⟩
  intro c t f _ hW
  simp only
  omega

/-- Witness for C3's amended theorem at a concrete index. -/
theorem c3_window_geometry_witness :
    (TssRegions.new [("c", 7, true)] 5).promoters = [(⟨"c", 2, 13⟩, true)] ∧
    (⟨"c", 2, 13⟩ : GenomicRange).stop - (⟨"c", 2, 13⟩ : GenomicRange).start = 2 * 5 + 1 :=
  ⟨((c3_window_geometry [("c", 7, true)] 5).1).trans (by decide),
   (c3_window_geometry [("c", 7, true)] 5).2.2 "c" 7 true (by decide) (by decide)⟩

/-- A list's length splits into the elements satisfying a predicate and
those that do not. -/
theorem countP_split {α : Type} (p : α → Bool) (l : List α) :
    l.countP p + l.countP (fun a => !p a) = l.length := by
  induction l with
  | nil => simp
  | cons a t ih =>
      by_cases h : p a <;> simp [List.countP_cons, h, ← ih] <;> omega

/-- Lemma: `update` adds the fragment's `count` to the running total. -/
theorem update_num_total (s : FragmentSummary) (f : Fragment) :
    (s.update f).num_total_fragment = s.num_total_fragment + f.count := by
  unfold FragmentSummary.update
  split <;> rfl

/-- Lemma: `update` bumps the mitochondrial counter by 1 exactly on
mitochondrial chromosomes. -/
theorem update_num_mito (s : FragmentSummary) (f : Fragment) :
    (s.update f).num_mitochondrial
      = s.num_mitochondrial
        + (if s.mitochondrial_dna.contains f.chrom then 1 else 0) := by
  unfold FragmentSummary.update
  split <;> rename_i h <;> simp [h]

/-- Lemma: `update` bumps the unique counter by 1 exactly on non-mitochondrial
chromosomes. -/
theorem update_num_unique (s : FragmentSummary) (f : Fragment) :
    (s.update f).num_unique_fragment
      = s.num_unique_fragment
        + (if s.mitochondrial_dna.contains f.chrom then 0 else 1) := by
  unfold FragmentSummary.update
  split <;> rename_i h <;> simp [h]

/-- Lemma: `update` never touches the mitochondrial chromosome set. -/
theorem update_mdna (s : FragmentSummary) (f : Fragment) :
    (s.update f).mitochondrial_dna = s.mitochondrial_dna := by
  unfold FragmentSummary.update
  split <;> rfl

/-- Running totals of a `FragmentSummary` fold: the total accumulates the
`count` fields, while the mitochondrial / unique counters count fragments
by chromosome membership; the mitochondrial set is never changed. -/
theorem run_summary_fold (mito : List String) (frags : List Fragment) :
    ∀ s : FragmentSummary, s.mitochondrial_dna = mito →
      (frags.foldl FragmentSummary.update s).num_total_fragment
          = s.num_total_fragment + (frags.map Fragment.count).sum ∧
      (frags.foldl FragmentSummary.update s).num_mitochondrial
          = s.num_mitochondrial + frags.countP (fun f => mito.contains f.chrom) ∧
      (frags.foldl FragmentSummary.update s).num_unique_fragment
          = s.num_unique_fragment + frags.countP (fun f => !mito.contains f.chrom) ∧
      (frags.foldl FragmentSummary.update s).mitochondrial_dna = mito := by
  induction frags with
  | nil => intro s hs; simpa using hs
  | cons fr tl ih =>
      intro s hs
      obtain ⟨h1, h2, h3, h4⟩ := ih (s.update fr) (by rw [update_mdna, hs])
      refine ⟨?_, ?_, ?_, ?_⟩
      · rw [List.foldl_cons, h1, update_num_total, List.map_cons, List.sum_cons]
        omega
      · rw [List.foldl_cons, h2, update_num_mito, hs, List.countP_cons]
        by_cases hm : mito.contains fr.chrom <;> simp [hm] <;> omega
      · rw [List.foldl_cons, h3, update_num_unique, hs, List.countP_cons]
        by_cases hm : mito.contains fr.chrom <;> simp [hm] <;> omega
      · rw [List.foldl_cons, h4]

/-- C4 (counterexample): a fragment whose `count` field is 0 leaves
`num_total_fragment = 0` while `num_unique_fragment = 1`, so
`frac_duplicated = 1 - 1/0 = -inf`, not `NaN`, even though the
denominator is zero. -/
theorem c4_zero_count_fragment :
    (run_summary [] [⟨"chr1", 0, 1, none, 0, none⟩]).num_total_fragment = 0 ∧
    (run_summary [] [⟨"chr1", 0, 1, none, 0, none⟩]).get_qc.frac_duplicated = F64.negInf ∧
    F64.negInf ≠ F64.nan := by
  decide

/-- C4 (amended): `update` adds `count` to the total but bumps exactly
one of the mitochondrial / unique counters by 1 regardless of `count`.
On finalization, with `u`, `m`, `t` the unique/mitochondrial/total
counters: both ratios are `NaN` for the empty stream; for a nonempty
stream `frac_mitochondrial = m / (u + m)` exactly; `frac_duplicated`
equals `1 - (u + m) / t` when `t` is nonzero and is `-inf` (not `NaN`)
when `t = 0` with fragments present (all counts zero). -/
theorem c4_summary_semantics (mito : List String) (frags : List Fragment) :
    (run_summary mito frags).num_total_fragment = (frags.map Fragment.count).sum ∧
    (run_summary mito frags).num_mitochondrial
        = frags.countP (fun f => mito.contains f.chrom) ∧
    (run_summary mito frags).num_unique_fragment
        = frags.countP (fun f => !mito.contains f.chrom) ∧
    (frags = [] →
      (run_summary mito frags).get_qc.frac_mitochondrial = F64.nan ∧
      (run_summary mito frags).get_qc.frac_duplicated = F64.nan) ∧
    (frags ≠ [] →
      (run_summary mito frags).get_qc.frac_mitochondrial
        = F64.finite (((run_summary mito frags).num_mitochondrial : ℚ) /
            (((run_summary mito frags).num_unique_fragment
              + (run_summary mito frags).num_mitochondrial : Nat) : ℚ))) ∧
    ((run_summary mito frags).num_total_fragment ≠ 0 →
      (run_summary mito frags).get_qc.frac_duplicated
        = F64.finite (1 - (((run_summary mito frags).num_unique_fragment
              + (run_summary mito frags).num_mitochondrial : Nat) : ℚ) /
            (((run_summary mito frags).num_total_fragment : Nat) : ℚ))) ∧
    (frags ≠ [] → (run_summary mito frags).num_total_fragment = 0 →
      (run_summary mito frags).get_qc.frac_duplicated = F64.negInf) := by
  obtain ⟨h1, h2, h3, _⟩ :=
    run_summary_fold mito frags (FragmentSummary.new mito) rfl
  have hum : (run_summary mito frags).num_unique_fragment
      + (run_summary mito frags).num_mitochondrial = frags.length := by
    have hsplit := countP_split (fun f => mito.contains f.chrom) frags
    unfold run_summary
    rw [h2, h3]
    simp only [FragmentSummary.new]
    omega
  refine ⟨by simpa [run_summary, FragmentSummary.new] using h1,
    by simpa [run_summary, FragmentSummary.new] using h2,
    by simpa [run_summary, FragmentSummary.new] using h3, ?_, ?_, ?_, ?_⟩
  · rintro rfl
    constructor
    · simp [run_summary, FragmentSummary.new, FragmentSummary.get_qc, fdivQ, oneSub]
    · simp [run_summary, FragmentSummary.new, FragmentSummary.get_qc, fdivQ, oneSub]
  · intro hne
    have h0 : (run_summary mito frags).num_unique_fragment
        + (run_summary mito frags).num_mitochondrial ≠ 0 := by
      rw [hum]
      simpa [List.length_eq_zero] using hne
    have hq : (((run_summary mito frags).num_unique_fragment
        + (run_summary mito frags).num_mitochondrial : Nat) : ℚ) ≠ 0 :=
      Nat.cast_ne_zero.mpr h0
    simp only [FragmentSummary.get_qc]
    unfold fdivQ
    rw [if_neg hq]
  · intro ht
    have hq : (((run_summary mito frags).num_total_fragment : Nat) : ℚ) ≠ 0 :=
      Nat.cast_ne_zero.mpr ht
    simp only [FragmentSummary.get_qc]
    unfold fdivQ
    rw [if_neg hq]
    rfl
  · intro hne ht
    have h0 : (run_summary mito frags).num_unique_fragment
        + (run_summary mito frags).num_mitochondrial ≠ 0 := by
      rw [hum]
      simpa [List.length_eq_zero] using hne
    have hqnum : (((run_summary mito frags).num_unique_fragment
        + (run_summary mito frags).num_mitochondrial : Nat) : ℚ) ≠ 0 :=
      Nat.cast_ne_zero.mpr h0
    simp only [FragmentSummary.get_qc]
    rw [ht]
    unfold fdivQ
    rw [if_pos (show ((0 : Nat) : ℚ) = 0 by norm_num), if_neg hqnum]
    rfl

/-- The mitochondrial set of the C4 witness. -/
def c4mito : List String := ["chrM"]

/-- The fragment stream of the C4 witness: one regular and one
mitochondrial fragment with counts 2 and 1. -/
def c4frags : List Fragment :=
  [⟨"chr1", 0, 10, none, 2, none⟩, ⟨"chrM", 0, 5, none, 1, none⟩]

/-- Witness for C4's amended theorem at a concrete two-fragment cell. -/
theorem c4_summary_semantics_witness :
    c4frags ≠ [] ∧
    (run_summary c4mito c4frags).num_total_fragment ≠ 0 ∧
    (run_summary c4mito c4frags).get_qc.frac_mitochondrial
      = F64.finite (((run_summary c4mito c4frags).num_mitochondrial : ℚ) /
          (((run_summary c4mito c4frags).num_unique_fragment
            + (run_summary c4mito c4frags).num_mitochondrial : Nat) : ℚ)) ∧
    (run_summary c4mito c4frags).get_qc.frac_duplicated
      = F64.finite (1 - (((run_summary c4mito c4frags).num_unique_fragment
            + (run_summary c4mito c4frags).num_mitochondrial : Nat) : ℚ) /
          (((run_summary c4mito c4frags).num_total_fragment : Nat) : ℚ)) :=
  ⟨by decide, by decide,
   (c4_summary_semantics c4mito c4frags).2.2.2.2.1 (by decide),
   (c4_summary_semantics c4mito c4frags).2.2.2.2.2.1 (by decide)⟩

/-- The concrete fragment used in the insertion-derivation witness. -/
def c6frag : Fragment :=
  ⟨"chr1", 10, 20, none, 1, none⟩

/-- C6: for a fragment with `start < end`, `to_insertions` yields exactly
`[start, start+1)` then `[end-1, end)` when strandless, only the start
site when forward, only the end site when reverse; it is never empty,
has at most 2 elements, and every element is a one-base interval. -/
theorem to_insertions_characterization (f : Fragment) (h : f.start < f.stop) :
    (f.strand = none →
      f.to_insertions
        = [⟨f.chrom, f.start, f.start + 1⟩, ⟨f.chrom, f.stop - 1, f.stop⟩]) ∧
    (f.strand = some Strand.Forward →
      f.to_insertions = [⟨f.chrom, f.start, f.start + 1⟩]) ∧
    (f.strand = some Strand.Reverse →
      f.to_insertions = [⟨f.chrom, f.stop - 1, f.stop⟩]) ∧
    f.to_insertions ≠ [] ∧
    f.to_insertions.length ≤ 2 ∧
    ∀ g ∈ f.to_insertions, g.stop = g.start + 1 := by
  rcases f with ⟨c, a, b, bc, n, st⟩
  change a < b at h
  cases st with
  | none =>
      refine ⟨fun _ => rfl, by simp, by simp, by simp [Fragment.to_insertions], ?_, ?_⟩
      · simp [Fragment.to_insertions]
      · intro g hg
        simp only [Fragment.to_insertions, List.mem_cons, List.mem_singleton] at hg
        rcases hg with rfl | rfl | h2
        · rfl
        · show b = b - 1 + 1
          omega
        · cases h2
  | some s =>
      cases s with
      | Forward =>
          refine ⟨by simp, fun _ => rfl, by simp, by simp [Fragment.to_insertions], ?_, ?_⟩
          · simp [Fragment.to_insertions]
          · intro g hg
            simp only [Fragment.to_insertions, List.mem_singleton] at hg
            subst hg
            rfl
      | Reverse =>
          refine ⟨by simp, by simp, fun _ => rfl, by simp [Fragment.to_insertions], ?_, ?_⟩
          · simp [Fragment.to_insertions]
          · intro g hg
            simp only [Fragment.to_insertions, List.mem_singleton] at hg
            subst hg
            show b = b - 1 + 1
            omega

/-- Witness for C6 at the strandless fragment `(chr1, 10, 20)`. -/
theorem to_insertions_characterization_witness :
    c6frag.start < c6frag.stop ∧
    ((c6frag.strand = none →
      c6frag.to_insertions
        = [⟨c6frag.chrom, c6frag.start, c6frag.start + 1⟩,
           ⟨c6frag.chrom, c6frag.stop - 1, c6frag.stop⟩]) ∧
    (c6frag.strand = some Strand.Forward →
      c6frag.to_insertions = [⟨c6frag.chrom, c6frag.start, c6frag.start + 1⟩]) ∧
    (c6frag.strand = some Strand.Reverse →
      c6frag.to_insertions = [⟨c6frag.chrom, c6frag.stop - 1, c6frag.stop⟩]) ∧
    c6frag.to_insertions ≠ [] ∧
    c6frag.to_insertions.length ≤ 2 ∧
    ∀ g ∈ c6frag.to_insertions, g.stop = g.start + 1) :=
  ⟨by decide, to_insertions_characterization c6frag (by decide)⟩

end SnapQC


namespace SnapQC

/-- Pointwise natural addition of lists commutes. -/
theorem zipWith_add_comm (a b : List Nat) :
    a.zipWith (· + ·) b = b.zipWith (· + ·) a := by
  induction a generalizing b with
  | nil => cases b <;> rfl
  | cons x xs ih =>
      cases b with
      | nil => rfl
      | cons y ys => simp [Nat.add_comm, ih]

/-- Pointwise natural addition of lists is associative (both sides
truncate to the shortest operand). -/
theorem zipWith_add_assoc (a b c : List Nat) :
    (a.zipWith (· + ·) b).zipWith (· + ·) c
      = a.zipWith (· + ·) (b.zipWith (· + ·) c) := by
  induction a generalizing b c with
  | nil => rfl
  | cons x xs ih =>
      cases b with
      | nil => rfl
      | cons y ys =>
          cases c with
          | nil => rfl
          | cons z zs => simp [Nat.add_assoc, ih]

/-- With histograms of equal length, `add_from` is the plain pointwise
sum (the leftover-suffix term of the Rust `zip` is empty). -/
theorem add_from_counts_eq (a b : TSSe) (h : a.counts.length = b.counts.length) :
    (a.add_from b).counts = a.counts.zipWith (· + ·) b.counts := by
  unfold TSSe.add_from
  simp [List.drop_eq_nil_of_le (le_of_eq h)]

/-- Lemma: `add_from` keeps the receiver's histogram length, as the Rust
`iter_mut` formulation does. -/
theorem add_from_counts_len (a b : TSSe) :
    (a.add_from b).counts.length = a.counts.length := by
  unfold TSSe.add_from
  simp only [List.length_append, List.length_zipWith, List.length_drop]
  omega

/-- Two `TSSe` states with equal fields are equal. -/
theorem TSSe.eq_of_fields {s t : TSSe} (h1 : s.promoters = t.promoters)
    (h2 : s.counts = t.counts) (h3 : s.n_overlapping = t.n_overlapping)
    (h4 : s.n_total = t.n_total) : s = t := by
  cases s
  cases t
  simp_all

/-- C8: for `TSSe` states over the same promoter index (hence equal
histogram lengths), merging in the orders `(A+B)+C`, `A+(B+C)` and
`(B+A)+C` produces identical states: identical histograms, `n_total`
and `n_overlapping`. -/
theorem add_from_assoc_comm (a b c : TSSe)
    (hab : a.promoters = b.promoters) (hbc : b.promoters = c.promoters)
    (lab : a.counts.length = b.counts.length)
    (lbc : b.counts.length = c.counts.length) :
    (a.add_from b).add_from c = a.add_from (b.add_from c) ∧
    (b.add_from a).add_from c = (a.add_from b).add_from c := by
  have len1 : (a.add_from b).counts.length = c.counts.length :=
    (add_from_counts_len a b).trans (lab.trans lbc)
  have len2 : a.counts.length = (b.add_from c).counts.length := by
    rw [add_from_counts_len]
    exact lab
  have len3 : (b.add_from a).counts.length = c.counts.length :=
    (add_from_counts_len b a).trans lbc
  constructor
  · apply TSSe.eq_of_fields
    · rfl
    · rw [add_from_counts_eq _ _ len1, add_from_counts_eq _ _ lab,
        add_from_counts_eq _ _ len2, add_from_counts_eq _ _ lbc]
      exact zipWith_add_assoc a.counts b.counts c.counts
    · show a.n_overlapping + b.n_overlapping + c.n_overlapping
        = a.n_overlapping + (b.n_overlapping + c.n_overlapping)
      omega
    · show a.n_total + b.n_total + c.n_total = a.n_total + (b.n_total + c.n_total)
      omega
  · apply TSSe.eq_of_fields
    · exact hab.symm
    · rw [add_from_counts_eq _ _ len3, add_from_counts_eq _ _ len1,
        add_from_counts_eq _ _ lab.symm, add_from_counts_eq _ _ lab]
      rw [zipWith_add_comm b.counts a.counts]
    · show b.n_overlapping + a.n_overlapping + c.n_overlapping
        = a.n_overlapping + b.n_overlapping + c.n_overlapping
      omega
    · show b.n_total + a.n_total + c.n_total = a.n_total + b.n_total + c.n_total
      omega

/-- The shared promoter index of the C8 witness. -/
def c8regions : TssRegions := TssRegions.new [("c", 3, true)] 0

/-- Witness for C8 at three concrete one-bin states over the same
index. -/
theorem add_from_assoc_comm_witness :
    (TSSe.mk c8regions [1] 2 3).promoters = (TSSe.mk c8regions [10] 4 5).promoters ∧
    (TSSe.mk c8regions [10] 4 5).promoters = (TSSe.mk c8regions [100] 6 7).promoters ∧
    (TSSe.mk c8regions [1] 2 3).counts.length = (TSSe.mk c8regions [10] 4 5).counts.length ∧
    (TSSe.mk c8regions [10] 4 5).counts.length = (TSSe.mk c8regions [100] 6 7).counts.length ∧
    (((TSSe.mk c8regions [1] 2 3).add_from (TSSe.mk c8regions [10] 4 5)).add_from
        (TSSe.mk c8regions [100] 6 7)
      = (TSSe.mk c8regions [1] 2 3).add_from
          ((TSSe.mk c8regions [10] 4 5).add_from (TSSe.mk c8regions [100] 6 7)) ∧
    ((TSSe.mk c8regions [10] 4 5).add_from (TSSe.mk c8regions [1] 2 3)).add_from
        (TSSe.mk c8regions [100] 6 7)
      = ((TSSe.mk c8regions [1] 2 3).add_from (TSSe.mk c8regions [10] 4 5)).add_from
          (TSSe.mk c8regions [100] 6 7)) :=
  ⟨rfl, rfl, rfl, rfl,
   add_from_assoc_comm (TSSe.mk c8regions [1] 2 3) (TSSe.mk c8regions [10] 4 5)
     (TSSe.mk c8regions [100] 6 7) rfl rfl rfl rfl⟩

end SnapQC

namespace SnapQC

/-- C10: for any promoter window produced by `TssRegions::new` with
half-window `W` that overlaps a one-base insertion, the offset computed
by `TSSe::add` (`insertion_start - window_start` for forward windows,
`window_end - 1 - insertion_start` for reverse ones) never underflows and
is strictly below the histogram length `2W+1` allocated by `TSSe::new`,
so the histogram update stays in bounds. -/
theorem add_offset_in_bounds (l : List (String × Nat × Bool)) (W : Nat)
    (p : GenomicRange) (fwd : Bool) (ins : GenomicRange)
    (hmem : (p, fwd) ∈ (TssRegions.new l W).promoters)
    (hins : ins.stop = ins.start + 1)
    (hov : p.overlapsWith ins = true) :
    (TSSe.new (TssRegions.new l W)).counts.length = 2 * W + 1 ∧
    (if fwd then p.start ≤ ins.start else ins.start ≤ p.stop - 1) ∧
    (if fwd then ins.start - p.start else p.stop - 1 - ins.start) < 2 * W + 1 := by
  simp only [TssRegions.new, List.mem_map] at hmem
  obtain ⟨x, hin, heq⟩ := hmem
  obtain ⟨c, t, f⟩ := x
  simp only at heq
  injection heq with hp hf
  subst hp
  subst hf
  simp only [GenomicRange.overlapsWith, Bool.and_eq_true, decide_eq_true_eq] at hov
  obtain ⟨⟨-, h1⟩, h2⟩ := hov
  rw [hins] at h1
  refine ⟨by simp [TSSe.new, TssRegions.len, TssRegions.new], ?_, ?_⟩
  · cases f <;> simp <;> omega
  · cases f <;> simp <;> omega

/-- Witness for C10 at a concrete forward window and insertion. -/
theorem add_offset_in_bounds_witness :
    ((⟨"c", 2, 13⟩ : GenomicRange), true) ∈ (TssRegions.new [("c", 7, true)] 5).promoters ∧
    (⟨"c", 5, 6⟩ : GenomicRange).stop = (⟨"c", 5, 6⟩ : GenomicRange).start + 1 ∧
    GenomicRange.overlapsWith ⟨"c", 2, 13⟩ ⟨"c", 5, 6⟩ = true ∧
    ((TSSe.new (TssRegions.new [("c", 7, true)] 5)).counts.length = 2 * 5 + 1 ∧
     (if true then (⟨"c", 2, 13⟩ : GenomicRange).start ≤ (⟨"c", 5, 6⟩ : GenomicRange).start
      else (⟨"c", 5, 6⟩ : GenomicRange).start ≤ (⟨"c", 2, 13⟩ : GenomicRange).stop - 1) ∧
     (if true then (⟨"c", 5, 6⟩ : GenomicRange).start - (⟨"c", 2, 13⟩ : GenomicRange).start
      else (⟨"c", 2, 13⟩ : GenomicRange).stop - 1 - (⟨"c", 5, 6⟩ : GenomicRange).start)
        < 2 * 5 + 1) :=
  ⟨by decide, rfl, by decide,
   add_offset_in_bounds [("c", 7, true)] 5 ⟨"c", 2, 13⟩ true ⟨"c", 5, 6⟩
     (by decide) rfl (by decide)⟩

/-- The second component of `TSSe::result` is the overlap-rate
division. -/
theorem result_snd (s : TSSe) :
    s.result.2 = fdivQ s.n_overlapping s.n_total := rfl

/-- One `addInsertion` step bumps `n_total` by one and `n_overlapping`
by at most one. -/
theorem addInsertion_totals (s : TSSe) (ins : GenomicRange) :
    (s.addInsertion ins).n_total = s.n_total + 1 ∧
    s.n_overlapping ≤ (s.addInsertion ins).n_overlapping ∧
    (s.addInsertion ins).n_overlapping ≤ s.n_overlapping + 1 := by
  unfold TSSe.addInsertion
  refine ⟨rfl, ?_, ?_⟩ <;> dsimp only <;> split <;> omega

/-- The invariant `n_overlapping ≤ n_total` is preserved by folding any
insertion list through `addInsertion`. -/
theorem foldl_addInsertion_inv (inss : List GenomicRange) :
    ∀ s : TSSe, s.n_overlapping ≤ s.n_total →
      (inss.foldl TSSe.addInsertion s).n_overlapping
        ≤ (inss.foldl TSSe.addInsertion s).n_total := by
  induction inss with
  | nil => intro s h; exact h
  | cons i t ih =>
      intro s h
      rw [List.foldl_cons]
      apply ih
      obtain ⟨h1, _, h3⟩ := addInsertion_totals s i
      omega

/-- C9: every `TSSe` state reachable from a fresh accumulator by `add`
and `add_from` satisfies `n_overlapping ≤ n_total`, so when
`n_total > 0` the overlap rate returned by `result` is a finite rational
in `[0, 1]`. -/
theorem overlap_rate_bound (r : TssRegions) (s : TSSe) (h : TSSe.Reachable r s) :
    s.n_overlapping ≤ s.n_total ∧
    (0 < s.n_total → ∃ q : ℚ, s.result.2 = F64.finite q ∧ 0 ≤ q ∧ q ≤ 1) := by
  have hinv : s.n_overlapping ≤ s.n_total := by
    induction h with
    | base => exact Nat.le.refl
    | step s' f hr ih => exact foldl_addInsertion_inv f.to_insertions s' ih
    | combine s' t' hs ht ihs iht =>
        show s'.n_overlapping + t'.n_overlapping ≤ s'.n_total + t'.n_total
        omega
  refine ⟨hinv, fun hpos => ⟨(s.n_overlapping : ℚ) / (s.n_total : ℚ), ?_, ?_, ?_⟩⟩
  · rw [result_snd]
    unfold fdivQ
    rw [if_neg (Nat.cast_ne_zero.mpr (by omega))]
  · exact div_nonneg (Nat.cast_nonneg _) (Nat.cast_nonneg _)
  · rw [div_le_one (by exact_mod_cast hpos)]
    exact_mod_cast hinv

/-- The promoter index of the C9 witness. -/
def c9regions : TssRegions := TssRegions.new [("chrom1", 999, true)] 5

/-- The C9 witness state: a fresh accumulator fed one strandless
fragment. -/
def c9state : TSSe :=
  TSSe.add (TSSe.new c9regions) ⟨"chrom1", 994, 1004, none, 1, none⟩

/-- Witness for C9 at a concrete reachable state with `n_total = 2`. -/
theorem overlap_rate_bound_witness :
    0 < c9state.n_total ∧
    (c9state.n_overlapping ≤ c9state.n_total ∧
     (0 < c9state.n_total → ∃ q : ℚ, c9state.result.2 = F64.finite q ∧ 0 ≤ q ∧ q ≤ 1)) :=
  ⟨by decide,
   overlap_rate_bound c9regions c9state
     (TSSe.Reachable.step (TSSe.new c9regions) ⟨"chrom1", 994, 1004, none, 1, none⟩
       TSSe.Reachable.base)⟩

end SnapQC

namespace SnapQC

/-- The first component of `TSSe::result` is the smoothed TSS bin over
the background. -/
theorem result_fst (s : TSSe) :
    s.result.1
      = fdivQ ((moving_average 5 s.counts).getD s.promoters.window_size 0)
          ((((s.counts.take 100).sum + (s.counts.reverse.take 100).sum : Nat) : ℚ) / 200
            + 1 / 10) := rfl

/-- Closed form of one in-range entry of `moving_average`. -/
theorem moving_average_getD (hw : Nat) (arr : List Nat) (i : Nat) (h : i < arr.length) :
    (moving_average hw arr).getD i 0
      = (((arr.drop (i - hw)).take (min (i + hw + 1) arr.length - (i - hw))).sum : ℚ)
          / ((min (i + hw + 1) arr.length - (i - hw) : Nat) : ℚ) := by
  unfold moving_average
  rw [List.getD_eq_getElem?_getD, List.getElem?_map, List.getElem?_range h]
  rfl

/-- The spec's smoothed value coincides with the code's slice formula at
in-range indexes. -/
theorem smoothedSpec_eq (arr : List Nat) (i : Nat) (h : i < arr.length) :
    smoothedSpec arr i
      = (((arr.drop (i - 5)).take (min (i + 5 + 1) arr.length - (i - 5))).sum : ℚ)
          / ((min (i + 5 + 1) arr.length - (i - 5) : Nat) : ℚ) := by
  simp only [smoothedSpec]
  have hlo : (max ((i : Int) - 5) 0).toNat = i - 5 := by omega
  have hhi : min arr.length (i + 6) = min (i + 5 + 1) arr.length := by omega
  rw [hlo, hhi]
  have hlen2 : ((arr.drop (i - 5)).take (min (i + 5 + 1) arr.length - (i - 5))).length
      = min (i + 5 + 1) arr.length - (i - 5) := by
    simp only [List.length_take, List.length_drop]
    omega
  rw [hlen2]

/-- C2: for a `TSSe` state over a half-window-`W` index with histogram
length `2W+1` (and the interface invariant `n_overlapping ≤ n_total`),
`result` is exactly the spec formula: the smoothed histogram value at
the center bin `W` divided by the flank background with its `0.1`
pseudocount, paired with the overlap rate `n_overlapping / n_total`,
which is `NaN` exactly when `n_total = 0`. -/
theorem result_formula (s : TSSe) (W : Nat) (hW : s.promoters.window_size = W)
    (hlen : s.counts.length = 2 * W + 1) (hinv : s.n_overlapping ≤ s.n_total) :
    s.result
      = (F64.finite (smoothedSpec s.counts W / backgroundSpec s.counts),
         if s.n_total = 0 then F64.nan
         else F64.finite ((s.n_overlapping : ℚ) / (s.n_total : ℚ))) := by
  have hWlt : W < s.counts.length := by omega
  have hbg : backgroundSpec s.counts ≠ 0 := by
    unfold backgroundSpec
    positivity
  have hbg' : ((((s.counts.take 100).sum + (s.counts.reverse.take 100).sum : Nat) : ℚ) / 200
      + 1 / 10) ≠ 0 := hbg
  apply Prod.ext
  · rw [result_fst, hW]
    unfold fdivQ
    rw [if_neg hbg']
    rw [moving_average_getD 5 s.counts W hWlt, smoothedSpec_eq s.counts W hWlt]
    rfl
  · rw [result_snd]
    by_cases h : s.n_total = 0
    · have hov : s.n_overlapping = 0 := by omega
      rw [h, hov, if_pos rfl]
      simp [fdivQ]
    · rw [if_neg h]
      unfold fdivQ
      rw [if_neg (Nat.cast_ne_zero.mpr h)]

/-- Witness for C2 at the fresh accumulator over an empty index with
half-window 1. -/
theorem result_formula_witness :
    (TSSe.new (TssRegions.new [] 1)).promoters.window_size = 1 ∧
    (TSSe.new (TssRegions.new [] 1)).counts.length = 2 * 1 + 1 ∧
    (TSSe.new (TssRegions.new [] 1)).n_overlapping ≤ (TSSe.new (TssRegions.new [] 1)).n_total ∧
    (TSSe.new (TssRegions.new [] 1)).result
      = (F64.finite (smoothedSpec (TSSe.new (TssRegions.new [] 1)).counts 1
            / backgroundSpec (TSSe.new (TssRegions.new [] 1)).counts),
         if (TSSe.new (TssRegions.new [] 1)).n_total = 0 then F64.nan
         else F64.finite (((TSSe.new (TssRegions.new [] 1)).n_overlapping : ℚ)
            / ((TSSe.new (TssRegions.new [] 1)).n_total : ℚ))) :=
  ⟨rfl, rfl, by decide, result_formula (TSSe.new (TssRegions.new [] 1)) 1 rfl rfl (by decide)⟩

end SnapQC

namespace SnapQC

/-- The count column can only fail as the (numeric) error that the Rust
code maps it to. -/
theorem countField_error (o : Option (List Char)) (e : ParseError)
    (h : countField o = .error e) : e = ParseError.InvalidStartPosition := by
  cases o with
  | none => simp [countField] at h
  | some s =>
      simp only [countField] at h
      split at h
      · simp at h
      · rcases hps : parseNat s with _ | n <;> rw [hps] at h
        · injection h with h'
          exact h'.symm
        · simp at h

/-- The strand column can only fail as `InvalidStrand`. -/
theorem strandField_error (o : Option (List Char)) (e : ParseError)
    (h : strandField o = .error e) : e = ParseError.InvalidStrand := by
  cases o with
  | none => simp [strandField] at h
  | some s =>
      simp only [strandField] at h
      split at h
      · simp at h
      · split at h
        · simp at h
        · split at h
          · simp at h
          · injection h with h'
            exact h'.symm

/-- C5 (counterexample): a line with exactly 3 tab-separated fields
(`chrom start end`) does not parse; it fails with the missing-field
error `MissingName` because the barcode column is mandatory, refuting
"with at least 3 well-formed fields it succeeds". -/
theorem c5_three_fields_fail :
    (splitTab ("chr1\t10\t20").data).length = 3 ∧
    Fragment.from_str "chr1\t10\t20" = .error ParseError.MissingName ∧
    ParseError.MissingName.isMissingField = true := by
  decide

/-- C5 (amended): parsing a tab-separated fragment line fails with a
missing-field error exactly when fewer than 4 fields are present (and
the present numeric fields parse); with at least 4 fields every failure
is an invalid-field error; with at least 4 fields and well-formed
start/end/count/strand columns parsing succeeds, treating `"."` as
absent barcode, absent or `"."` count as 1, and absent or `"."` strand
as none. -/
theorem from_fields_characterization (fs : List (List Char)) :
    (fs.length < 4 →
      (∀ s1, fs.get? 1 = some s1 → (parseNat s1).isSome = true) →
      (∀ s2, fs.get? 2 = some s2 → (parseNat s2).isSome = true) →
      ∃ e, Fragment.from_fields fs = .error e ∧ e.isMissingField = true) ∧
    (4 ≤ fs.length →
      ∀ e, Fragment.from_fields fs = .error e → e.isMissingField = false) ∧
    (∀ c st en bc rest, fs = c :: st :: en :: bc :: rest →
      ∀ a b n so, parseNat st = some a → parseNat en = some b →
        countField (rest.get? 0) = .ok n → strandField (rest.get? 1) = .ok so →
        Fragment.from_fields fs
          = .ok ⟨String.mk c, a, b,
              if bc = ['.'] then none else some (String.mk bc), n, so⟩) ∧
    countField none = .ok 1 ∧ countField (some ['.']) = .ok 1 ∧
    strandField none = .ok none ∧ strandField (some ['.']) = .ok none := by
  refine ⟨?_, ?_, ?_, rfl, rfl, rfl, rfl⟩
  · intro hlt h1 h2
    rcases fs with _ | ⟨c, _ | ⟨st, _ | ⟨en, _ | ⟨bc, rest⟩⟩⟩⟩
    · exact ⟨ParseError.MissingReferenceSequenceName, rfl, rfl⟩
    · exact ⟨ParseError.MissingStartPosition, rfl, rfl⟩
    · obtain ⟨a, ha⟩ := Option.isSome_iff_exists.mp (h1 st rfl)
      refine ⟨ParseError.MissingEndPosition, ?_, rfl⟩
      unfold Fragment.from_fields
      simp [ha]
    · obtain ⟨a, ha⟩ := Option.isSome_iff_exists.mp (h1 st rfl)
      obtain ⟨b, hb⟩ := Option.isSome_iff_exists.mp (h2 en rfl)
      refine ⟨ParseError.MissingName, ?_, rfl⟩
      unfold Fragment.from_fields
      simp [ha, hb]
    · simp at hlt
      omega
  · intro hge e he
    rcases fs with _ | ⟨c, _ | ⟨st, _ | ⟨en, _ | ⟨bc, rest⟩⟩⟩⟩ <;>
      simp at hge
    unfold Fragment.from_fields at he
    simp only [List.get?] at he
    rcases hst : parseNat st with _ | a <;> rw [hst] at he
    · injection he with h'
      rw [← h']
      rfl
    · rcases hen : parseNat en with _ | b <;> rw [hen] at he
      · injection he with h'
        rw [← h']
        rfl
      · rcases hcf : countField (rest.get? 0) with ec | n <;> rw [hcf] at he
        · injection he with h'
          rw [← h', countField_error _ _ hcf]
          rfl
        · rcases hsf : strandField (rest.get? 1) with es | so <;> rw [hsf] at he
          · injection he with h'
            rw [← h', strandField_error _ _ hsf]
            rfl
          · simp at he
  · intro c st en bc rest hfs a b n so ha hb hcf hsf
    subst hfs
    unfold Fragment.from_fields
    simp only [List.get?]
    rw [ha, hb, hcf, hsf]

/-- Witness for C5's amended theorem at the concrete 3-field line
`chr1 10 20`. -/
theorem from_fields_characterization_witness :
    (splitTab ("chr1\t10\t20").data).length < 4 ∧
    (∃ e, Fragment.from_fields (splitTab ("chr1\t10\t20").data) = .error e ∧
      e.isMissingField = true) :=
  ⟨by decide,
   (from_fields_characterization (splitTab ("chr1\t10\t20").data)).1 (by decide)
     (by intro s1 h; injection h with h'; subst h'; decide)
     (by intro s2 h; injection h with h'; subst h'; decide)⟩

end SnapQC

namespace SnapQC

/-- Splitting a tab-free field leaves it whole. -/
theorem splitTab_no_tab (xs : List Char) (h : '\t' ∉ xs) : splitTab xs = [xs] := by
  induction xs with
  | nil => rfl
  | cons c cs ih =>
      have hc : c ≠ '\t' := fun hc => h (hc ▸ List.mem_cons_self c cs)
      have hcs : '\t' ∉ cs := fun hm => h (List.mem_cons_of_mem c hm)
      simp [splitTab, hc, ih hcs]

/-- Splitting peels off one tab-free field before a tab. -/
theorem splitTab_append (xs ys : List Char) (h : '\t' ∉ xs) :
    splitTab (xs ++ '\t' :: ys) = xs :: splitTab ys := by
  induction xs with
  | nil => simp [splitTab]
  | cons c cs ih =>
      have hc : c ≠ '\t' := fun hc => h (hc ▸ List.mem_cons_self c cs)
      have hcs : '\t' ∉ cs := fun hm => h (List.mem_cons_of_mem c hm)
      simp [splitTab, hc, ih hcs]

/-- Lemma: `charDigit` inverts `Nat.digitChar` on decimal digits. -/
theorem charDigit_digitChar (d : Nat) (h : d < 10) :
    charDigit (Nat.digitChar d) = some d := by
  interval_cases d <;> decide

/-- Every character of a decimal rendering is a digit. -/
theorem natChars_digits (n : Nat) : ∀ c ∈ natChars n, (charDigit c).isSome = true := by
  intro c hc
  unfold natChars at hc
  split at hc
  · simp at hc
    subst hc
    decide
  · simp only [List.mem_reverse, List.mem_map] at hc
    obtain ⟨d, hd, rfl⟩ := hc
    rw [charDigit_digitChar d (Nat.digits_lt_base (by norm_num) hd)]
    rfl

/-- Decimal renderings contain no tab. -/
theorem natChars_no_tab (n : Nat) : '\t' ∉ natChars n := by
  intro h
  exact absurd (natChars_digits n '\t' h) (by decide)

/-- A decimal rendering is never the literal dot field. -/
theorem natChars_ne_dot (n : Nat) : natChars n ≠ ['.'] := by
  intro h
  exact absurd (natChars_digits n '.' (by rw [h]; exact List.mem_singleton_self '.'))
    (by decide)

/-- Folding the numeric parser over rendered digits accumulates their
decimal value. -/
theorem parse_foldl_digits (ds : List Nat) :
    ∀ a : Nat, (∀ d ∈ ds, d < 10) →
      (ds.map Nat.digitChar).foldl
          (fun acc c => acc.bind fun x => (charDigit c).map fun d => x * 10 + d) (some a)
        = some (ds.foldl (fun x d => x * 10 + d) a) := by
  induction ds with
  | nil => intro a _; rfl
  | cons d tl ih =>
      intro a hds
      have hd : d < 10 := hds d (List.mem_cons_self d tl)
      have htl : ∀ x ∈ tl, x < 10 := fun x hx => hds x (List.mem_cons_of_mem d hx)
      simp only [List.map_cons, List.foldl_cons, charDigit_digitChar d hd,
        Option.some_bind, Option.map_some']
      exact ih (a * 10 + d) htl

/-- The most-significant-first fold equals `Nat.ofDigits` on the
little-endian digit list. -/
theorem foldr_ofDigits (l : List Nat) :
    l.foldr (fun d x => x * 10 + d) 0 = Nat.ofDigits 10 l := by
  induction l with
  | nil => rfl
  | cons d tl ih =>
      rw [List.foldr_cons, ih, Nat.ofDigits_cons]
      omega

/-- Parsing inverts the decimal rendering. -/
theorem parseNat_natChars (n : Nat) : parseNat (natChars n) = some n := by
  by_cases h : n = 0
  · subst h
    decide
  · unfold natChars parseNat
    rw [if_neg h]
    rw [if_neg (by simp [Nat.digits_ne_nil_iff_ne_zero.mpr h])]
    rw [← List.map_reverse]
    rw [parse_foldl_digits (Nat.digits 10 n).reverse 0
      (fun d hd => Nat.digits_lt_base (by norm_num) (List.mem_reverse.mp hd))]
    rw [List.foldl_reverse]
    rw [show (fun x y => (fun x d => x * 10 + d) y x) = (fun d x => x * 10 + d) from rfl]
    rw [foldr_ofDigits, Nat.ofDigits_digits]

/-- The strand column parser inverts the strand rendering. -/
theorem strandField_strandChars (s : Strand) :
    strandField (some (strandChars s)) = .ok (some s) := by
  cases s <;> decide

/-- The count column parser inverts the decimal rendering. -/
theorem countField_natChars (n : Nat) : countField (some (natChars n)) = .ok n := by
  simp only [countField]
  rw [if_neg (natChars_ne_dot n), parseNat_natChars n]

/-- C7: a fragment whose barcode and strand are present, whose chrom and
barcode are tab-free, and whose barcode is not the literal `"."`,
survives the serialize-then-parse round trip unchanged. -/
theorem parse_format_roundtrip (f : Fragment) (b : String) (st : Strand)
    (hb : f.barcode = some b) (hst : f.strand = some st)
    (hchrom : '\t' ∉ f.chrom.data) (hbt : '\t' ∉ b.data) (hdot : b ≠ ".") :
    Fragment.from_line f.toLine = .ok f := by
  have hbd : b.data ≠ ['.'] := by
    intro hb'
    apply hdot
    cases b with
    | mk d =>
        change d = ['.'] at hb'
        subst hb'
        decide
  have hsplit : splitTab f.toLine
      = [f.chrom.data, natChars f.start, natChars f.stop, b.data, natChars f.count,
         strandChars st] := by
    unfold Fragment.toLine
    rw [hb, hst]
    simp only [Option.map_some', Option.getD_some, List.append_assoc, List.cons_append]
    rw [splitTab_append _ _ hchrom,
      splitTab_append _ _ (natChars_no_tab f.start),
      splitTab_append _ _ (natChars_no_tab f.stop),
      splitTab_append _ _ hbt,
      splitTab_append _ _ (natChars_no_tab f.count),
      splitTab_no_tab _ (by cases st <;> decide)]
  unfold Fragment.from_line
  rw [hsplit]
  unfold Fragment.from_fields
  simp only [List.get?, parseNat_natChars, countField_natChars, strandField_strandChars]
  rw [if_neg hbd]
  rcases f with ⟨c, a, e, bc, n, sd⟩
  change bc = some b at hb
  change sd = some st at hst
  subst hb
  subst hst
  cases c with
  | mk cd => rfl

/-- Witness for C7 at a concrete fully-populated fragment. -/
theorem parse_format_roundtrip_witness :
    (⟨"chr1", 10, 20, some "BC", 2, some Strand.Forward⟩ : Fragment).barcode = some "BC" ∧
    (⟨"chr1", 10, 20, some "BC", 2, some Strand.Forward⟩ : Fragment).strand
      = some Strand.Forward ∧
    '\t' ∉ (⟨"chr1", 10, 20, some "BC", 2, some Strand.Forward⟩ : Fragment).chrom.data ∧
    '\t' ∉ ("BC" : String).data ∧
    ("BC" : String) ≠ "." ∧
    Fragment.from_line
        (Fragment.toLine ⟨"chr1", 10, 20, some "BC", 2, some Strand.Forward⟩)
      = .ok ⟨"chr1", 10, 20, some "BC", 2, some Strand.Forward⟩ :=
  ⟨rfl, rfl, by decide, by decide, by decide,
   parse_format_roundtrip ⟨"chr1", 10, 20, some "BC", 2, some Strand.Forward⟩ "BC"
     Strand.Forward rfl rfl (by decide) (by decide) (by decide)⟩

end SnapQC
